import Mathlib

/-!
Verification of the HD wallet derivation engine of this repository
(`src/hdwallet.py`).

The Python module is shallowly embedded: byte strings become `List Nat`
(each entry a byte value), Python `int` arithmetic becomes `Nat`/`Int`
arithmetic, and fallible operations return `Except`/`Option`.  The
cryptographic library primitives the module calls (`hmac`/`hashlib`
digests, the `ecdsa` public-point computation and the `mnemonic`
library) are not code of this repository; they are threaded through as
an explicit `Crypto` record of function parameters, so every theorem
quantifies over them and concrete instances can be evaluated.  The
`base58` library's encoding, whose output format the claims inspect, is
embedded concretely (the standard Bitcoin base-58 algorithm) together
with a decoder and a proved round trip.
-/

/-- Byte strings of the Python code: lists of byte values. -/
abbrev Bytes := List Nat

/-- `int.from_bytes(bs, 'big')`. -/
def bytesToNatBE (bs : Bytes) : Nat :=
  bs.foldl (fun a b => a * 256 + b) 0

/-- `n.to_bytes(len, 'big')` for `n < 256 ^ len` (big-endian, zero padded). -/
def natToBytesBE (len n : Nat) : Bytes :=
  (List.range len).map (fun k => n / 256 ^ (len - 1 - k) % 256)

/-- `index.to_bytes(4, 'big')` on a Python `int`: `none` models the
`OverflowError` raised for a negative value or a value not fitting in
4 bytes. -/
def toBytes4 (i : Int) : Option Bytes :=
  if 0 ≤ i ∧ i < 4294967296 then some (natToBytesBE 4 i.toNat) else none

/-- Value of a little-endian digit list in base `b`. -/
def leValB (b : Nat) : List Nat → Nat
  | [] => 0
  | d :: t => d + b * leValB b t

/-- Little-endian digits of `n` in base `b`, with explicit fuel so that the
recursion is structural (and hence reduces in the kernel). -/
def leDigitsAux (b : Nat) : Nat → Nat → List Nat
  | 0, _ => []
  | fuel + 1, n => if n = 0 then [] else n % b :: leDigitsAux b fuel (n / b)

/-- Little-endian digits of `n` in base `b` (`[]` for `0`); `n` itself is
always enough fuel because the argument at least halves each step. -/
def leDigitsB (b n : Nat) : List Nat := leDigitsAux b n n

/-- The Bitcoin base-58 alphabet used by the `base58` library. -/
def b58Alphabet : List Char :=
  "123456789ABCDEFGHJKLMNPQRSTUVWXYZabcdefghijkmnopqrstuvwxyz".data

/-- Digit value to alphabet character. -/
def b58Char (d : Nat) : Char := b58Alphabet.getD d '1'

/-- Alphabet character back to its digit value. -/
def b58Index (ch : Char) : Option Nat := b58Alphabet.findIdx? (fun a => a == ch)

/-- Map every character of a candidate base-58 string to its digit value;
`none` if some character is not in the alphabet. -/
def charVals : List Char → Option (List Nat)
  | [] => some []
  | ch :: t =>
    match b58Index ch, charVals t with
    | some d, some ds => some (d :: ds)
    | _, _ => none

/-- `base58.b58encode`: leading zero bytes become leading `'1'` characters,
the remaining bytes are read as one big-endian integer and written in
base 58. -/
def b58encode (bs : Bytes) : String :=
  let zeros := (bs.takeWhile (fun x => x == 0)).length
  let n := leValB 256 bs.reverse
  String.mk (List.replicate zeros '1' ++ (leDigitsB 58 n).reverse.map b58Char)

/-- Base-58 decoding: leading `'1'` characters become leading zero bytes,
the rest is read as a base-58 integer and written as its minimal
big-endian byte string. -/
def b58decode (s : String) : Option Bytes :=
  let cs := s.data
  let ones := (cs.takeWhile (fun ch => ch == '1')).length
  let rest := cs.dropWhile (fun ch => ch == '1')
  (charVals rest).map
    (fun ds => List.replicate ones 0 ++ (leDigitsB 256 (leValB 58 ds.reverse)).reverse)

/-- The apostrophe character marking hardened path segments. -/
def aposChar : Char := Char.ofNat 39

/-- The apostrophe as a one-character string (path literals are assembled
from it). -/
def aposStr : String := String.singleton aposChar

/-- Python `path.split('/')` on the character list: splits at every
separator, keeping empty segments (`"".split('/') == ['']`). -/
def splitChar (sep : Char) : List Char → List (List Char)
  | [] => [[]]
  | ch :: t =>
    let r := splitChar sep t
    if ch == sep then [] :: r
    else
      match r with
      | [] => [[ch]]
      | g :: gs => (ch :: g) :: gs

/-- Python `str.isdigit`-based decimal parse used to model `int(s)`:
a nonempty run of decimal digits.  (The exotic `int()` inputs —
surrounding whitespace and `_` digit separators — are not modelled;
no claim depends on them.) -/
def digitsToNat (s : List Char) : Option Nat :=
  if s ≠ [] ∧ s.all Char.isDigit then
    some (s.foldl (fun a ch => a * 10 + (ch.toNat - 48)) 0)
  else none

/-- Python `int(s)` for a decimal literal with an optional sign;
`none` models the `ValueError` raised on a malformed literal. -/
def pyInt : List Char → Option Int
  | '-' :: rest => (digitsToNat rest).map (fun k => -(k : Int))
  | '+' :: rest => (digitsToNat rest).map (fun k => (k : Int))
  | s => (digitsToNat s).map (fun k => (k : Int))

/-- One path segment to its derivation index, `src/hdwallet.py` lines
92–97: a trailing apostrophe means `int(part[:-1]) + 0x80000000`,
otherwise `int(part)`. -/
def segIndex (part : List Char) : Option Int :=
  match part.getLast? with
  | some ch =>
    if ch == aposChar then (pyInt part.dropLast).map (fun i => i + 2147483648)
    else pyInt part
  | none => pyInt part

/-- Failures of the embedded derivation code. -/
inductive DErr where
  /-- `ValueError("Path must start with 'm'")`, line 86. -/
  | rootMarker : DErr
  /-- `ValueError` from `int(part)` on a non-numeric segment. -/
  | intParse (part : List Char) : DErr
  /-- `OverflowError` from `index.to_bytes(4, 'big')` inside `CKDpriv`. -/
  | indexOverflow (index : Int) : DErr
  /-- `ecdsa.SigningKey.from_string` rejecting a scalar that is not a
  32-byte value in `[1, n)`. -/
  | ecInvalidKey : DErr
deriving DecidableEq

/-- The secp256k1 group order `n`, `src/hdwallet.py` line 74. -/
def secp256k1_n : Nat :=
  0xFFFFFFFFFFFFFFFFFFFFFFFFFFFFFFFEBAAEDCE6AF48A03BBFD25E8CD0364141

/-- The library primitives `src/hdwallet.py` calls, threaded through as
parameters of the embedding:
`hmacSha512 key msg` models `hmac.new(key, msg, hashlib.sha512).digest()`;
`sha256` and `ripemd160` the corresponding `hashlib` digests;
`ecPoint priv` models `SigningKey.from_string(priv).get_verifying_key().to_string()`
(the 64-byte `x ‖ y` encoding of the public point);
`validate_mnemonic`, `mnemonic_to_seed` the `mnemonic` library calls, and
`generated_mnemonic` the phrase `generate_mnemonic()`'s entropy source
would produce in the run being modelled. -/
structure Crypto where
  hmacSha512 : Bytes → Bytes → Bytes
  sha256 : Bytes → Bytes
  ripemd160 : Bytes → Bytes
  ecPoint : Bytes → Bytes
  validate_mnemonic : String → Bool
  mnemonic_to_seed : String → String → Bytes
  generated_mnemonic : String

/-- Compressed public key as built inline on line 66: prefix `0x02` when
byte 63 of the 64-byte point encoding (the last byte of `y`) is even,
else `0x03`, followed by the 32 `x` bytes. -/
def compressedFromPoint (s : Bytes) : Bytes :=
  (if s.getD 63 0 % 2 = 0 then 2 else 3) :: s.take 32

/-- The `b"Bitcoin seed"` HMAC key, line 53. -/
def bitcoinSeedKey : Bytes := [66, 105, 116, 99, 111, 105, 110, 32, 115, 101, 101, 100]

/-- `HDWallet.derive_master_key`, lines 49–54. -/
def derive_master_key (c : Crypto) (seed : Bytes) : Bytes × Bytes :=
  let I := c.hmacSha512 bitcoinSeedKey seed
  (I.take 32, I.drop 32)

/-- Scalar validity check performed by `ecdsa.SigningKey.from_string`:
a 32-byte string whose big-endian value lies in `[1, n)`. -/
def validScalarBytes (pk : Bytes) : Prop :=
  pk.length = 32 ∧ 1 ≤ bytesToNatBE pk ∧ bytesToNatBE pk < secp256k1_n

instance (pk : Bytes) : Decidable (validScalarBytes pk) := by
  unfold validScalarBytes; infer_instance

/-- `HDWallet.CKDpriv`, lines 56–79.  Hardened (`index ≥ 0x80000000`)
derivation hashes `0x00 ‖ parent_priv ‖ index₄`; normal derivation first
loads the parent key into `ecdsa` (which validates the scalar) and hashes
`compressed_parent_pub ‖ index₄`.  The child is
`((I_L + parent) mod n, I_R)` with no further checks. -/
def CKDpriv (c : Crypto) (parent_priv parent_chain : Bytes) (index : Int) :
    Except DErr (Bytes × Bytes) :=
  let build : Except DErr Bytes :=
    if (2147483648 : Int) ≤ index then
      match toBytes4 index with
      | some ib => .ok (0 :: (parent_priv ++ ib))
      | none => .error (.indexOverflow index)
    else
      if validScalarBytes parent_priv then
        match toBytes4 index with
        | some ib => .ok (compressedFromPoint (c.ecPoint parent_priv) ++ ib)
        | none => .error (.indexOverflow index)
      else .error .ecInvalidKey
  match build with
  | .error e => .error e
  | .ok data =>
    let I := c.hmacSha512 parent_chain data
    let I_left := bytesToNatBE (I.take 32)
    let parent_priv_int := bytesToNatBE parent_priv
    let child_priv_int := (I_left + parent_priv_int) % secp256k1_n
    .ok (natToBytesBE 32 child_priv_int, I.drop 32)

instance {ε α : Type} [DecidableEq ε] [DecidableEq α] : DecidableEq (Except ε α)
  | .ok x, .ok y => decidable_of_iff (x = y) (by simp)
  | .ok _, .error _ => .isFalse (by simp)
  | .error _, .ok _ => .isFalse (by simp)
  | .error e, .error f => decidable_of_iff (e = f) (by simp)

/-- Outcome of `HDWallet.derive_path`, instrumented with how much
derivation work had been performed when the call returned:
`masterComputed` records whether line 89 (`derive_master_key`) ran, and
`ckdSteps` counts completed `CKDpriv` calls. -/
structure DeriveTrace where
  result : Except DErr (Bytes × Bytes)
  masterComputed : Bool
  ckdSteps : Nat
deriving DecidableEq

/-- The `for part in parts[1:]` loop of `derive_path`, lines 91–99. -/
def derivePathLoop (c : Crypto) (priv_key chain_code : Bytes) (steps : Nat) :
    List (List Char) → DeriveTrace
  | [] => ⟨.ok (priv_key, chain_code), true, steps⟩
  | part :: rest =>
    match segIndex part with
    | none => ⟨.error (.intParse part), true, steps⟩
    | some index =>
      match CKDpriv c priv_key chain_code index with
      | .error e => ⟨.error e, true, steps⟩
      | .ok pc => derivePathLoop c pc.1 pc.2 (steps + 1) rest

/-- `HDWallet.derive_path`, lines 81–101: split the path, check the root
marker, compute the master key, then fold `CKDpriv` over the segments. -/
def derive_path (c : Crypto) (seed : Bytes) (path : String) : DeriveTrace :=
  match splitChar '/' path.data with
  | [] => ⟨.error .rootMarker, false, 0⟩
  | p0 :: rest =>
    if p0 = ['m'] then
      let mk := derive_master_key c seed
      derivePathLoop c mk.1 mk.2 0 rest
    else ⟨.error .rootMarker, false, 0⟩

/-- `HDWallet.private_key_to_public_key`, lines 103–116 (the `ecdsa`
loading again validates the scalar; compression prefixes by the parity
of the last byte of `y`). -/
def private_key_to_public_key (c : Crypto) (private_key : Bytes) (compressed : Bool) :
    Except DErr Bytes :=
  if validScalarBytes private_key then
    let s := c.ecPoint private_key
    if compressed then
      let x := s.take 32
      let y := s.drop 32
      .ok ((if y.getLastD 0 % 2 = 0 then 2 else 3) :: x)
    else .ok (4 :: s)
  else .error .ecInvalidKey

/-- `HDWallet.public_key_to_address`, lines 118–135.  The 1-byte
big-endian serialization of the version byte is embedded as a cons;
it coincides with `version_byte.to_bytes(1, 'big')` for version bytes
below 256 (larger values would raise in Python, and the theorems carry
that bound). -/
def public_key_to_address (c : Crypto) (public_key : Bytes) (version_byte : Nat) : String :=
  let sha := c.sha256 public_key
  let ripemd := c.ripemd160 sha
  let version_payload := version_byte :: ripemd
  let checksum := (c.sha256 (c.sha256 version_payload)).take 4
  let full_payload := version_payload ++ checksum
  b58encode full_payload

/-- `HDWallet.get_address`, lines 137–141. -/
def get_address (c : Crypto) (seed : Bytes) (path : String) : Except DErr String :=
  match (derive_path c seed path).result with
  | .error e => .error e
  | .ok pk =>
    match private_key_to_public_key c pk.1 true with
    | .error e => .error e
    | .ok public_key => .ok (public_key_to_address c public_key 48)

/-- True when the path string ends with the hardened marker
(`path.endswith("'")`, line 181). -/
def endsWithApos (s : List Char) : Bool :=
  match s.getLast? with
  | some ch => ch == aposChar
  | none => false

/-- `HDWallet.get_xpub`, lines 162–200, transcribed field by field:
version `0x0488B21E`, depth from the segment count, fingerprint computed
from the *master* key (line 174), child number `0x80000000`/`0` from the
trailing-apostrophe test (line 181), and key data `0x00 ‖ public_key`
(line 184). -/
def get_xpub (c : Crypto) (seed : Bytes) (path : String) : Except DErr String :=
  match (derive_path c seed path).result with
  | .error e => .error e
  | .ok pk =>
    match private_key_to_public_key c pk.1 true with
    | .error e => .error e
    | .ok public_key =>
      let version : Nat := 0x0488B21E
      let depth := (splitChar '/' path.data).length - 1
      match private_key_to_public_key c (derive_master_key c seed).1 true with
      | .error e => .error e
      | .ok parent_public_key =>
        let fingerprint := (c.ripemd160 (c.sha256 parent_public_key)).take 4
        let child_number : Nat := if endsWithApos path.data then 2147483648 else 0
        let key_data := 0 :: public_key
        let data := natToBytesBE 4 version ++ [depth] ++ fingerprint ++
          natToBytesBE 4 child_number ++ pk.2 ++ key_data
        let checksum := (c.sha256 (c.sha256 data)).take 4
        .ok (b58encode (data ++ checksum))

/-- The per-process `HDWallet` object: its fields after `__init__`. -/
structure HDWalletState where
  mnemonic : String
  passphrase : String
  seed : Bytes
deriving DecidableEq

/-- `HDWallet.__init__`, lines 15–29: a missing mnemonic is replaced by a
freshly generated one; a provided mnemonic that fails validation raises
`ValueError("Invalid mnemonic phrase")`. -/
def HDWallet_init (c : Crypto) (mnemonicArg : Option String) (passphrase : String) :
    Except String HDWalletState :=
  match mnemonicArg with
  | none =>
    let m := c.generated_mnemonic
    .ok ⟨m, passphrase, c.mnemonic_to_seed m passphrase⟩
  | some m =>
    if c.validate_mnemonic m then .ok ⟨m, passphrase, c.mnemonic_to_seed m passphrase⟩
    else .error "Invalid mnemonic phrase"

/-- What the `config` import at lines 204–206 can yield: the import itself
raising, a config object without a `BOT_MNEMONIC` attribute, or a
configured mnemonic string. -/
inductive ConfigState where
  | importFails : ConfigState
  | noMnemonicAttr : ConfigState
  | mnemonic (m : String) : ConfigState

/-- The module-level wallet initialization, lines 204–211: try to build
`HDWallet` from the configured mnemonic and, on *any* exception, fall
back to `HDWallet()` (which generates a fresh mnemonic and cannot
fail). -/
def module_hd_wallet (c : Crypto) (cfg : ConfigState) : HDWalletState :=
  let fallback : HDWalletState :=
    match HDWallet_init c none "" with
    | .ok w => w
    | .error _ => ⟨c.generated_mnemonic, "", c.mnemonic_to_seed c.generated_mnemonic ""⟩
  match cfg with
  | .importFails => fallback
  | .noMnemonicAttr =>
    match HDWallet_init c none "" with
    | .ok w => w
    | .error _ => fallback
  | .mnemonic m =>
    match HDWallet_init c (some m) "" with
    | .ok w => w
    | .error _ => fallback

/-- `HDWallet(mnemonic, passphrase)` for a valid mnemonic: the state the
object holds afterwards (`self.seed = mnemonic_to_seed(...)`). -/
def HDWallet_of (c : Crypto) (mnemonic passphrase : String) : HDWalletState :=
  ⟨mnemonic, passphrase, c.mnemonic_to_seed mnemonic passphrase⟩

/-- A call of the *method* `get_address` on a wallet object, in explicit
state-passing form: the method only reads `self.seed` and assigns no
attribute, so the returned object state is the receiver unchanged. -/
def get_address_call (c : Crypto) (w : HDWalletState) (path : String) :
    Except DErr String × HDWalletState :=
  (get_address c w.seed path, w)

/-- The derivation path the module builds for a user,
`f"m/84'/2'/0'/0/{user_id % 1000000}"` (line 226). -/
def userPath (n : Nat) : String :=
  "m/84" ++ aposStr ++ "/2" ++ aposStr ++ "/0" ++ aposStr ++ "/0/" ++ Nat.repr n

/-- Module-level `get_address_from_path`, lines 217–218 (on the module
wallet's seed). -/
def get_address_from_path (c : Crypto) (seed : Bytes) (path : String) : Except DErr String :=
  get_address c seed path

/-- `create_ltc_address_for_user`, lines 220–232: derive at the user path
and catch every exception, returning `None`. -/
def create_ltc_address_for_user (c : Crypto) (seed : Bytes) (user_id : Nat) : Option String :=
  match get_address_from_path c seed (userPath (user_id % 1000000)) with
  | .ok address => some address
  | .error _ => none

/-- Projection of an `Except` to its success value. -/
def okOf {α : Type} : Except DErr α → Option α
  | .ok a => some a
  | .error _ => none

/-- Projection of an `Except` to its error value. -/
def errOf {α : Type} : Except DErr α → Option DErr
  | .ok _ => none
  | .error e => some e

/-- A concrete instantiation of the library primitives used to evaluate
the theorems on closed inputs: every derived scalar stays in `[1, n)` and
every digest byte is a valid byte. -/
def cw : Crypto :=
  ⟨fun _ _ => (List.range 64).map (fun k => k + 1),
   fun _ => List.range 32,
   fun _ => List.range 20,
   fun _ => List.range 64,
   fun _ => true,
   fun _ _ => List.range 64,
   "gen"⟩

/-- An instantiation whose keyed hash returns `bigEndian(n - 1) ‖ 7…7`:
feeding it to `CKDpriv` with parent scalar `1` makes
`I_L + parent ≡ 0 (mod n)`, the degenerate zero-key case. -/
def c2crypto : Crypto :=
  ⟨fun _ _ => natToBytesBE 32 (secp256k1_n - 1) ++ List.replicate 32 7,
   fun _ => List.range 32,
   fun _ => List.range 20,
   fun _ => List.range 64,
   fun _ => true,
   fun _ _ => List.range 64,
   "gen"⟩

/-- An instantiation whose keyed hash returns 64 `0xFF` bytes, so that
`I_L = 2^256 - 1 ≥ n`, the other degenerate case. -/
def c2bcrypto : Crypto :=
  ⟨fun _ _ => List.replicate 64 255,
   fun _ => List.range 32,
   fun _ => List.range 20,
   fun _ => List.range 64,
   fun _ => true,
   fun _ _ => List.range 64,
   "gen"⟩

/-- An instantiation whose keyed hash returns `bigEndian(1) ‖ bigEndian(3)`,
keeping every derived scalar at small valid values. -/
def c8crypto : Crypto :=
  ⟨fun _ _ => natToBytesBE 32 1 ++ natToBytesBE 32 3,
   fun _ => List.range 32,
   fun _ => List.range 20,
   fun _ => List.range 64,
   fun _ => true,
   fun _ _ => List.range 64,
   "gen"⟩

/-- An instantiation whose keyed hash is identically zero: the master
scalar is `0`, so the first non-hardened step's `SigningKey.from_string`
raises, exercising the exception path of `create_ltc_address_for_user`. -/
def c10crypto : Crypto :=
  ⟨fun _ _ => List.replicate 64 0,
   fun _ => List.range 32,
   fun _ => List.range 20,
   fun _ => List.range 64,
   fun _ => true,
   fun _ _ => List.range 64,
   "gen"⟩

/-- An instantiation on which every mnemonic fails validation and the
generated fallback phrase is `"fresh"`, exercising the module
initialization's exception handler. -/
def c3crypto : Crypto :=
  ⟨fun _ _ => [], fun _ => [], fun _ => [], fun _ => [],
   fun _ => false, fun _ _ => [], "fresh"⟩

/-- A concrete 64-byte seed for the closed evaluations. -/
def seed0 : Bytes := List.replicate 64 9

/-- The 32-byte big-endian encoding of the scalar `1`. -/
def key1 : Bytes := natToBytesBE 32 1

/-- The concrete derivation path `m/1'`. -/
def pathM1h : String := "m/1" ++ aposStr

/-- The HMAC input buffer exactly as the specification words it (step 1 of
the CKD algorithm): for a hardened index `0x00 ‖ parentPrivateKey ‖
index₄ᴮᴱ`, otherwise `compressedParentPublicKey ‖ index₄ᴮᴱ` with the
compression prefix chosen by the parity of the point's `y` coordinate.
Stated independently of `CKDpriv` so the code can be compared against
it. -/
def ckdDataSpec (c : Crypto) (parent_priv : Bytes) (index : Int) : Bytes :=
  if (2147483648 : Int) ≤ index then
    0 :: (parent_priv ++ natToBytesBE 4 index.toNat)
  else
    ((if (c.ecPoint parent_priv).getD 63 0 % 2 = 0 then 2 else 3) ::
      (c.ecPoint parent_priv).take 32) ++ natToBytesBE 4 index.toNat

/-! ### Helper lemmas about byte and digit representations -/

theorem natToBytesBE_length (len n : Nat) : (natToBytesBE len n).length = len := by
  simp [natToBytesBE]

theorem leDigitsAux_zero (b f : Nat) : leDigitsAux b f 0 = [] := by
  cases f <;> simp [leDigitsAux]

theorem leValB_leDigitsAux (b : Nat) (hb : 2 ≤ b) :
    ∀ f n, n ≤ f → leValB b (leDigitsAux b f n) = n := by
  intro f
  induction f with
  | zero =>
    intro n hn
    have h0 : n = 0 := Nat.le_zero.mp hn
    subst h0
    simp [leDigitsAux, leValB]
  | succ f ih =>
    intro n hn
    by_cases h0 : n = 0
    · subst h0; simp [leDigitsAux, leValB]
    · have hdiv : n / b ≤ f := by
        have h1 : n / b < n := Nat.div_lt_self (Nat.pos_of_ne_zero h0) (by omega)
        omega
      simp only [leDigitsAux, if_neg h0, leValB]
      rw [ih (n / b) hdiv]
      exact Nat.mod_add_div n b

theorem leValB_leDigitsB (b : Nat) (hb : 2 ≤ b) (n : Nat) :
    leValB b (leDigitsB b n) = n :=
  leValB_leDigitsAux b hb n n (le_refl n)

theorem leDigitsAux_ne_nil (b f n : Nat) (h0 : n ≠ 0) (hf : n ≤ f) :
    leDigitsAux b f n ≠ [] := by
  cases f with
  | zero => omega
  | succ f => simp [leDigitsAux, h0]

theorem getLast?_leDigitsAux (b : Nat) (hb : 2 ≤ b) :
    ∀ f n, n ≤ f → (leDigitsAux b f n).getLast? ≠ some 0 := by
  intro f
  induction f with
  | zero =>
    intro n hn
    have h0 : n = 0 := Nat.le_zero.mp hn
    subst h0
    simp [leDigitsAux]
  | succ f ih =>
    intro n hn
    by_cases h0 : n = 0
    · subst h0; simp [leDigitsAux]
    · simp only [leDigitsAux, if_neg h0]
      have hdiv : n / b ≤ f := by
        have h1 : n / b < n := Nat.div_lt_self (Nat.pos_of_ne_zero h0) (by omega)
        omega
      by_cases hq : n / b = 0
      · rw [hq, leDigitsAux_zero]
        have hnb : n < b := by
          rcases Nat.lt_or_ge n b with hlt | hge
          · exact hlt
          · exfalso
            have h1 : 1 ≤ n / b := (Nat.one_le_div_iff (by omega)).mpr hge
            omega
        simp [Nat.mod_eq_of_lt hnb, h0]
      · obtain ⟨y, ys, hys⟩ := List.exists_cons_of_ne_nil (leDigitsAux_ne_nil b f (n / b) hq hdiv)
        rw [hys, List.getLast?_cons_cons, ← hys]
        exact ih (n / b) hdiv

theorem mem_leDigitsAux_lt (b : Nat) (hb : 2 ≤ b) :
    ∀ f n d, d ∈ leDigitsAux b f n → d < b := by
  intro f
  induction f with
  | zero => simp [leDigitsAux]
  | succ f ih =>
    intro n d hd
    by_cases h0 : n = 0
    · subst h0; simp [leDigitsAux] at hd
    · simp only [leDigitsAux, if_neg h0, List.mem_cons] at hd
      rcases hd with rfl | hd
      · exact Nat.mod_lt n (by omega)
      · exact ih _ _ hd

theorem leValB_eq_zero (b : Nat) (hb : 2 ≤ b) :
    ∀ l : List Nat, leValB b l = 0 → l.getLast? ≠ some 0 → l = [] := by
  intro l
  induction l with
  | nil => intro _ _; rfl
  | cons d t ih =>
    intro hv hl
    simp only [leValB] at hv
    have hd : d = 0 := by omega
    have ht : leValB b t = 0 := by
      rcases Nat.mul_eq_zero.mp (by omega : b * leValB b t = 0) with hb0 | hx
      · omega
      · exact hx
    cases t with
    | nil => subst hd; simp at hl
    | cons y ys =>
      rw [List.getLast?_cons_cons] at hl
      exact absurd (ih ht hl) (by simp)

theorem leDigitsAux_leValB (b : Nat) (hb : 2 ≤ b) :
    ∀ (l : List Nat) (f : Nat), (∀ x ∈ l, x < b) → l.getLast? ≠ some 0 →
      leValB b l ≤ f → leDigitsAux b f (leValB b l) = l := by
  intro l
  induction l with
  | nil =>
    intro f _ _ _
    simp [leValB, leDigitsAux_zero]
  | cons d t ih =>
    intro f hmem hlast hf
    have hdb : d < b := hmem d (List.mem_cons_self d t)
    cases t with
    | nil =>
      have hd0 : d ≠ 0 := by
        intro hd
        subst hd
        simp at hlast
      have hval : leValB b [d] = d := by simp [leValB]
      rw [hval] at hf ⊢
      obtain ⟨g, rfl⟩ : ∃ g, f = g + 1 := ⟨f - 1, by omega⟩
      simp only [leDigitsAux, if_neg hd0]
      rw [Nat.mod_eq_of_lt hdb, Nat.div_eq_of_lt hdb, leDigitsAux_zero]
    | cons y ys =>
      have hlast2 : (y :: ys).getLast? ≠ some 0 := by
        rw [List.getLast?_cons_cons] at hlast
        exact hlast
      have hX : leValB b (y :: ys) ≠ 0 := by
        intro hzero
        exact absurd (leValB_eq_zero b hb (y :: ys) hzero hlast2) (by simp)
      have hX1 : 1 ≤ leValB b (y :: ys) := Nat.pos_of_ne_zero hX
      have hval : leValB b (d :: y :: ys) = d + b * leValB b (y :: ys) := rfl
      have hbX : 2 * leValB b (y :: ys) ≤ b * leValB b (y :: ys) :=
        Nat.mul_le_mul_right _ hb
      have hvpos : d + b * leValB b (y :: ys) ≠ 0 := by omega
      rw [hval] at hf ⊢
      obtain ⟨g, rfl⟩ : ∃ g, f = g + 1 := ⟨f - 1, by omega⟩
      simp only [leDigitsAux, if_neg hvpos]
      have hmod : (d + b * leValB b (y :: ys)) % b = d := by
        rw [Nat.add_mul_mod_self_left, Nat.mod_eq_of_lt hdb]
      have hdivq : (d + b * leValB b (y :: ys)) / b = leValB b (y :: ys) := by
        rw [Nat.add_mul_div_left _ _ (by omega : 0 < b), Nat.div_eq_of_lt hdb,
          Nat.zero_add]
      rw [hmod, hdivq]
      have hXle : leValB b (y :: ys) ≤ g := by omega
      rw [ih g (fun x hx => hmem x (List.mem_cons_of_mem d hx)) hlast2 hXle]

theorem leDigitsB_leValB (b : Nat) (hb : 2 ≤ b) (l : List Nat)
    (hmem : ∀ x ∈ l, x < b) (hlast : l.getLast? ≠ some 0) :
    leDigitsB b (leValB b l) = l :=
  leDigitsAux_leValB b hb l (leValB b l) hmem hlast (le_refl _)

theorem leValB_append_zeros (b : Nat) (l : List Nat) (k : Nat) :
    leValB b (l ++ List.replicate k 0) = leValB b l := by
  induction l with
  | nil =>
    simp only [List.nil_append]
    induction k with
    | zero => rfl
    | succ k ihk => simp [List.replicate_succ, leValB, ihk]
  | cons d t ih => simp [leValB, ih]

theorem takeWhile_replicate_append {α : Type} (p : α → Bool) (a : α) (hp : p a = true)
    (k : Nat) (t : List α) :
    (List.replicate k a ++ t).takeWhile p = List.replicate k a ++ t.takeWhile p := by
  induction k with
  | zero => simp
  | succ k ih => simp [List.replicate_succ, List.takeWhile, hp, ih]

theorem dropWhile_replicate_append {α : Type} (p : α → Bool) (a : α) (hp : p a = true)
    (k : Nat) (t : List α) :
    (List.replicate k a ++ t).dropWhile p = t.dropWhile p := by
  induction k with
  | zero => simp
  | succ k ih => simp [List.replicate_succ, List.dropWhile, hp, ih]

theorem head?_dropWhile_false {α : Type} (p : α → Bool) :
    ∀ (l : List α) (x : α), (l.dropWhile p).head? = some x → p x = false := by
  intro l
  induction l with
  | nil => simp [List.dropWhile]
  | cons a t ih =>
    intro x hx
    by_cases hpa : p a
    · rw [List.dropWhile_cons_of_pos hpa] at hx
      exact ih x hx
    · rw [List.dropWhile_cons_of_neg hpa] at hx
      simp only [List.head?_cons, Option.some.injEq] at hx
      subst hx
      exact Bool.eq_false_iff.mpr hpa

theorem b58Index_b58Char_bounded : ∀ d ∈ List.range 58, b58Index (b58Char d) = some d := by
  decide

theorem b58Char_ne_one_bounded :
    ∀ d ∈ List.range 58, d ≠ 0 → (b58Char d == '1') = false := by
  decide

theorem charVals_map_b58Char :
    ∀ l : List Nat, (∀ d ∈ l, d < 58) → charVals (l.map b58Char) = some l := by
  intro l
  induction l with
  | nil => intro _; rfl
  | cons d t ih =>
    intro hmem
    have hd : d < 58 := hmem d (List.mem_cons_self d t)
    simp only [List.map_cons, charVals,
      b58Index_b58Char_bounded d (List.mem_range.mpr hd),
      ih (fun x hx => hmem x (List.mem_cons_of_mem d hx))]

theorem b58decode_b58encode (bs : Bytes) (h : ∀ x ∈ bs, x < 256) :
    b58decode (b58encode bs) = some bs := by
  obtain ⟨k, r, hbs, hrh⟩ :
      ∃ k r, bs = List.replicate k 0 ++ r ∧ ∀ x, r.head? = some x → x ≠ 0 := by
    refine ⟨(bs.takeWhile (fun x => x == 0)).length, bs.dropWhile (fun x => x == 0),
      ?_, ?_⟩
    · conv_lhs => rw [← List.takeWhile_append_dropWhile (p := fun x => x == 0) (l := bs)]
      congr 1
      apply List.eq_replicate_of_mem
      intro x hx
      simpa using List.mem_takeWhile_imp hx
    · intro x hx h0
      have := head?_dropWhile_false (fun x => x == 0) bs x hx
      simp [h0] at this
  subst hbs
  have hmem256 : ∀ x ∈ r.reverse, x < 256 := by
    intro x hx
    exact h x (by simp [List.mem_append, List.mem_reverse.mp hx])
  have hlastr : r.reverse.getLast? ≠ some 0 := by
    rw [List.getLast?_reverse]
    cases hr : r.head? with
    | none => simp
    | some x =>
      intro hcontra
      exact hrh x hr (by simpa using hcontra)
  -- the big-endian value of the payload ignores the leading zero bytes
  have hval : leValB 256 (List.replicate k 0 ++ r).reverse = leValB 256 r.reverse := by
    rw [List.reverse_append, List.reverse_replicate, leValB_append_zeros]
  -- the payload's leading zero count is exactly k
  have htwr : r.takeWhile (fun x => x == 0) = [] := by
    cases hr : r with
    | nil => rfl
    | cons a t =>
      have ha : a ≠ 0 := hrh a (by rw [hr]; rfl)
      have hfa : (a == 0) = false := by simpa using ha
      simp [List.takeWhile, hfa]
  have hktw : ((List.replicate k 0 ++ r).takeWhile (fun x => x == 0)).length = k := by
    rw [takeWhile_replicate_append _ _ (by decide), htwr, List.append_nil,
      List.length_replicate]
  -- abbreviations for the digit string of the encoded number
  have hd58 : ∀ d ∈ (leDigitsB 58 (leValB 256 r.reverse)).reverse, d < 58 := by
    intro d hd
    exact mem_leDigitsAux_lt 58 (by omega) _ _ d (List.mem_reverse.mp hd)
  have hlast58 : (leDigitsB 58 (leValB 256 r.reverse)).getLast? ≠ some 0 :=
    getLast?_leDigitsAux 58 (by omega) _ _ (le_refl _)
  -- the encoded string, explicitly
  have henc : b58encode (List.replicate k 0 ++ r) =
      String.mk (List.replicate k '1' ++
        (leDigitsB 58 (leValB 256 r.reverse)).reverse.map b58Char) := by
    unfold b58encode
    rw [hktw, hval]
  rw [henc]
  -- character scan of the decoder
  have hmap1 : ((leDigitsB 58 (leValB 256 r.reverse)).reverse.map b58Char).takeWhile
      (fun ch => ch == '1') = [] := by
    cases hds : (leDigitsB 58 (leValB 256 r.reverse)).reverse with
    | nil => rfl
    | cons d t =>
      have hdmem : d < 58 := hd58 d (by rw [hds]; exact List.mem_cons_self d t)
      have hdlast : (leDigitsB 58 (leValB 256 r.reverse)).getLast? = some d := by
        rw [← List.head?_reverse, hds]
        rfl
      have hd0 : d ≠ 0 := fun h0 => hlast58 (h0 ▸ hdlast)
      simp [List.takeWhile,
        b58Char_ne_one_bounded d (List.mem_range.mpr hdmem) hd0]
  have hmap2 : ((leDigitsB 58 (leValB 256 r.reverse)).reverse.map b58Char).dropWhile
      (fun ch => ch == '1') =
      (leDigitsB 58 (leValB 256 r.reverse)).reverse.map b58Char := by
    cases hds : (leDigitsB 58 (leValB 256 r.reverse)).reverse with
    | nil => rfl
    | cons d t =>
      have hdmem : d < 58 := hd58 d (by rw [hds]; exact List.mem_cons_self d t)
      have hdlast : (leDigitsB 58 (leValB 256 r.reverse)).getLast? = some d := by
        rw [← List.head?_reverse, hds]
        rfl
      have hd0 : d ≠ 0 := fun h0 => hlast58 (h0 ▸ hdlast)
      simp [List.dropWhile,
        b58Char_ne_one_bounded d (List.mem_range.mpr hdmem) hd0]
  -- now unfold the decoder
  unfold b58decode
  simp only
  rw [takeWhile_replicate_append _ _ (by decide), hmap1, List.append_nil,
    List.length_replicate, dropWhile_replicate_append _ _ (by decide), hmap2,
    charVals_map_b58Char _ hd58]
  simp only [Option.map_some']
  rw [List.reverse_reverse, leValB_leDigitsB 58 (by omega),
    leDigitsB_leValB 256 (by omega) r.reverse hmem256 hlastr, List.reverse_reverse]

set_option maxRecDepth 100000

/-! ### The claims -/

/-- C1: for every 32-byte parent private key (a valid scalar), parent chain
code and index in `[0, 2^32)`, `CKDpriv` keys the 512-bit HMAC by the
parent chain code over `0x00 ‖ parentPrivateKey ‖ index₄ᴮᴱ` when
`index ≥ 2^31` and over `compressedParentPublicKey ‖ index₄ᴮᴱ` otherwise;
the child private key is `(I_L + parentPrivateKey) mod n` for the
secp256k1 group order `n` and the child chain code is the last 32 bytes
of the HMAC output.  The buffer has 37 bytes (so the compressed public
key in the non-hardened branch has 33). -/
theorem CKDpriv_spec (c : Crypto) (parent_priv parent_chain : Bytes) (index : Int)
    (hlen : parent_priv.length = 32)
    (hlo : 1 ≤ bytesToNatBE parent_priv)
    (hhi : bytesToNatBE parent_priv < secp256k1_n)
    (hec : (c.ecPoint parent_priv).length = 64)
    (h0 : 0 ≤ index) (h4 : index < 4294967296) :
    CKDpriv c parent_priv parent_chain index =
      .ok (natToBytesBE 32
            ((bytesToNatBE
                ((c.hmacSha512 parent_chain (ckdDataSpec c parent_priv index)).take 32)
              + bytesToNatBE parent_priv) % secp256k1_n),
          (c.hmacSha512 parent_chain (ckdDataSpec c parent_priv index)).drop 32)
    ∧ (ckdDataSpec c parent_priv index).length = 37 := by
  have hvs : validScalarBytes parent_priv := ⟨hlen, hlo, hhi⟩
  have ht4 : toBytes4 index = some (natToBytesBE 4 index.toNat) := by
    unfold toBytes4
    rw [if_pos ⟨h0, h4⟩]
  constructor
  · by_cases hh : (2147483648 : Int) ≤ index
    · unfold CKDpriv ckdDataSpec
      simp only [if_pos hh, ht4, if_pos hvs]
    · unfold CKDpriv ckdDataSpec compressedFromPoint
      simp only [if_neg hh, ht4, if_pos hvs]
  · by_cases hh : (2147483648 : Int) ≤ index
    · simp only [ckdDataSpec, if_pos hh, List.length_cons, List.length_append,
        natToBytesBE_length, hlen]
    · simp only [ckdDataSpec, if_neg hh, List.length_cons, List.length_append,
        natToBytesBE_length, List.length_take, hec]
      omega

/-- Closed instance of `CKDpriv_spec` at the scalar `1`, a constant chain
code and the non-hardened index `0`, with all hypotheses evaluated. -/
theorem CKDpriv_spec_witness :
    CKDpriv cw key1 (List.replicate 32 2) 0 =
      .ok (natToBytesBE 32
            ((bytesToNatBE
                ((cw.hmacSha512 (List.replicate 32 2) (ckdDataSpec cw key1 0)).take 32)
              + bytesToNatBE key1) % secp256k1_n),
          (cw.hmacSha512 (List.replicate 32 2) (ckdDataSpec cw key1 0)).drop 32)
    ∧ (ckdDataSpec cw key1 0).length = 37 :=
  CKDpriv_spec cw key1 (List.replicate 32 2) 0 (by decide) (by decide) (by decide)
    (by decide) (by decide) (by decide)

/-- C2 is violated by the code (code bug): `CKDpriv` contains no check of
the BIP32 degenerate cases.  With an HMAC oracle returning
`bigEndian(n - 1) ‖ 7…7` and parent scalar `1` it returns the all-zero
child key as a success, and with an oracle returning 64 `0xFF` bytes
(`I_L = 2^256 - 1 ≥ n`) it likewise succeeds instead of rejecting. -/
theorem CKDpriv_zero_key_bug :
    okOf (CKDpriv c2crypto key1 (List.replicate 32 2) 2147483648) =
      some (List.replicate 32 0, List.replicate 32 7)
    ∧ secp256k1_n ≤ bytesToNatBE
        ((c2bcrypto.hmacSha512 (List.replicate 32 2)
          (0 :: (key1 ++ natToBytesBE 4 2147483648))).take 32)
    ∧ (okOf (CKDpriv c2bcrypto key1 (List.replicate 32 2) 2147483648)).isSome = true := by
  refine ⟨by decide, by decide, by decide⟩

/-- C4: `derive_master_key` splits the HMAC of the seed keyed by the fixed
ASCII string `"Bitcoin seed"` into the 32-byte master scalar and the
32-byte master chain code; it is a total function of its arguments. -/
theorem derive_master_key_spec (c : Crypto) (seed : Bytes)
    (hlen : (c.hmacSha512 bitcoinSeedKey seed).length = 64) :
    bitcoinSeedKey = "Bitcoin seed".data.map Char.toNat
    ∧ derive_master_key c seed =
        ((c.hmacSha512 bitcoinSeedKey seed).take 32,
         (c.hmacSha512 bitcoinSeedKey seed).drop 32)
    ∧ (derive_master_key c seed).1.length = 32
    ∧ (derive_master_key c seed).2.length = 32
    ∧ (derive_master_key c seed).1 ++ (derive_master_key c seed).2
        = c.hmacSha512 bitcoinSeedKey seed := by
  refine ⟨by decide, rfl, ?_, ?_, ?_⟩
  · simp [derive_master_key, hlen]
  · simp [derive_master_key, hlen]
  · simp [derive_master_key]

/-- Closed instance of `derive_master_key_spec` on a concrete 64-byte
digest oracle and seed. -/
theorem derive_master_key_spec_witness :
    bitcoinSeedKey = "Bitcoin seed".data.map Char.toNat
    ∧ derive_master_key cw seed0 =
        ((cw.hmacSha512 bitcoinSeedKey seed0).take 32,
         (cw.hmacSha512 bitcoinSeedKey seed0).drop 32)
    ∧ (derive_master_key cw seed0).1.length = 32
    ∧ (derive_master_key cw seed0).2.length = 32
    ∧ (derive_master_key cw seed0).1 ++ (derive_master_key cw seed0).2
        = cw.hmacSha512 bitcoinSeedKey seed0 :=
  derive_master_key_spec cw seed0 (by decide)

/-- C5: `public_key_to_address` is the base-58 encoding of
`versionByte ‖ RIPEMD160(SHA256(pub))` followed by the first 4 bytes of
`SHA256(SHA256(versionByte ‖ RIPEMD160(SHA256(pub))))`; consequently the
produced address decodes to a payload whose first byte is the version
byte and whose trailing 4 bytes are that checksum.  (Determinism is
immediate: the embedded operation is a pure function of
`(public_key, version_byte)`.) -/
theorem public_key_to_address_spec (c : Crypto) (public_key : Bytes) (version_byte : Nat)
    (hv : version_byte < 256)
    (h160 : ∀ y ∈ c.ripemd160 (c.sha256 public_key), y < 256)
    (hsha : ∀ y ∈ c.sha256 (c.sha256 (version_byte :: c.ripemd160 (c.sha256 public_key))),
      y < 256)
    (hlen : 4 ≤ (c.sha256
      (c.sha256 (version_byte :: c.ripemd160 (c.sha256 public_key)))).length) :
    public_key_to_address c public_key version_byte =
      b58encode ((version_byte :: c.ripemd160 (c.sha256 public_key)) ++
        (c.sha256 (c.sha256 (version_byte :: c.ripemd160 (c.sha256 public_key)))).take 4)
    ∧ b58decode (public_key_to_address c public_key version_byte) =
      some ((version_byte :: c.ripemd160 (c.sha256 public_key)) ++
        (c.sha256 (c.sha256 (version_byte :: c.ripemd160 (c.sha256 public_key)))).take 4)
    ∧ ((version_byte :: c.ripemd160 (c.sha256 public_key)) ++
        (c.sha256 (c.sha256 (version_byte :: c.ripemd160 (c.sha256 public_key)))).take 4).head?
      = some version_byte
    ∧ ((version_byte :: c.ripemd160 (c.sha256 public_key)) ++
        (c.sha256 (c.sha256 (version_byte :: c.ripemd160 (c.sha256 public_key)))).take 4).drop
        (((version_byte :: c.ripemd160 (c.sha256 public_key)) ++
          (c.sha256 (c.sha256 (version_byte :: c.ripemd160 (c.sha256 public_key)))).take 4).length
          - 4)
      = (c.sha256 (c.sha256 (version_byte :: c.ripemd160 (c.sha256 public_key)))).take 4 := by
  have hmem : ∀ x ∈ (version_byte :: c.ripemd160 (c.sha256 public_key)) ++
      (c.sha256 (c.sha256 (version_byte :: c.ripemd160 (c.sha256 public_key)))).take 4,
      x < 256 := by
    intro x hx
    rcases List.mem_append.mp hx with hx | hx
    · rcases List.mem_cons.mp hx with rfl | hx
      · exact hv
      · exact h160 x hx
    · exact hsha x (List.take_subset 4 _ hx)
  have hc4 : ((c.sha256
      (c.sha256 (version_byte :: c.ripemd160 (c.sha256 public_key)))).take 4).length = 4 := by
    rw [List.length_take]
    omega
  refine ⟨rfl, ?_, ?_, ?_⟩
  · exact b58decode_b58encode _ hmem
  · simp
  · rw [List.length_append, hc4, List.length_cons, Nat.add_sub_cancel]
    have : ((version_byte :: c.ripemd160 (c.sha256 public_key))).length =
        (c.ripemd160 (c.sha256 public_key)).length + 1 := List.length_cons _ _
    rw [← this]
    exact List.drop_left _ _

/-- Closed instance of `public_key_to_address_spec` on concrete digest
oracles, public key `[2, 3]` and the Litecoin version byte `0x30`. -/
theorem public_key_to_address_spec_witness :
    public_key_to_address cw [2, 3] 48 =
      b58encode ((48 :: cw.ripemd160 (cw.sha256 [2, 3])) ++
        (cw.sha256 (cw.sha256 (48 :: cw.ripemd160 (cw.sha256 [2, 3])))).take 4)
    ∧ b58decode (public_key_to_address cw [2, 3] 48) =
      some ((48 :: cw.ripemd160 (cw.sha256 [2, 3])) ++
        (cw.sha256 (cw.sha256 (48 :: cw.ripemd160 (cw.sha256 [2, 3])))).take 4)
    ∧ ((48 :: cw.ripemd160 (cw.sha256 [2, 3])) ++
        (cw.sha256 (cw.sha256 (48 :: cw.ripemd160 (cw.sha256 [2, 3])))).take 4).head?
      = some 48
    ∧ ((48 :: cw.ripemd160 (cw.sha256 [2, 3])) ++
        (cw.sha256 (cw.sha256 (48 :: cw.ripemd160 (cw.sha256 [2, 3])))).take 4).drop
        (((48 :: cw.ripemd160 (cw.sha256 [2, 3])) ++
          (cw.sha256 (cw.sha256 (48 :: cw.ripemd160 (cw.sha256 [2, 3])))).take 4).length - 4)
      = (cw.sha256 (cw.sha256 (48 :: cw.ripemd160 (cw.sha256 [2, 3])))).take 4 :=
  public_key_to_address_spec cw [2, 3] 48 (by decide) (by decide) (by decide) (by decide)

/-- C6: `create_ltc_address_for_user` derives at the path
`m/84'/2'/0'/0/(user_id mod 10^6)`, so any two user ids congruent modulo
`10^6` receive the same address. -/
theorem create_ltc_mod_collision (c : Crypto) (seed : Bytes) (u1 u2 : Nat)
    (h : u1 % 1000000 = u2 % 1000000) :
    create_ltc_address_for_user c seed u1
      = okOf (get_address_from_path c seed (userPath (u1 % 1000000)))
    ∧ create_ltc_address_for_user c seed u1 = create_ltc_address_for_user c seed u2 := by
  constructor
  · unfold create_ltc_address_for_user okOf
    cases get_address_from_path c seed (userPath (u1 % 1000000)) <;> rfl
  · unfold create_ltc_address_for_user
    rw [h]

/-- Closed instance of `create_ltc_mod_collision` at the documented pair
`(5, 1000005)`. -/
theorem create_ltc_mod_collision_witness :
    create_ltc_address_for_user cw seed0 5
      = okOf (get_address_from_path cw seed0 (userPath (5 % 1000000)))
    ∧ create_ltc_address_for_user cw seed0 5
      = create_ltc_address_for_user cw seed0 1000005 :=
  create_ltc_mod_collision cw seed0 5 1000005 (by decide)

/-- C7 is refuted at concrete inputs: on `"m/abc"` the non-numeric segment
raises only after the master key has been computed (the claim demands
failure before any derivation step), and the out-of-uint31 index in
`"m/2147483648"` is not rejected at all — derivation succeeds, the index
being silently treated as hardened. -/
theorem derive_path_claim_counterexample :
    errOf (derive_path cw seed0 "m/abc").result = some (DErr.intParse ['a', 'b', 'c'])
    ∧ (derive_path cw seed0 "m/abc").masterComputed = true
    ∧ (okOf (derive_path cw seed0 "m/2147483648").result).isSome = true := by
  refine ⟨by decide, by decide, by decide⟩

/-- C7 amended: only a path whose first segment is not the root marker
`m` fails before the master key is computed; a non-numeric segment fails
with a parse error but only after the master key (and the preceding
segments' child steps) have been computed; an index in `[2^31, 2^32)` is
accepted — a non-hardened segment carrying it is reinterpreted as
hardened — and only an index outside `[0, 2^32)` fails, inside the
child-key computation itself rather than during parsing. -/
theorem derive_path_validation (c : Crypto) (seed : Bytes) (path : String)
    (h : (splitChar '/' path.data).headD [] ≠ ['m']) :
    derive_path c seed path = ⟨.error .rootMarker, false, 0⟩
    ∧ derive_path c seed "m/abc" = ⟨.error (.intParse ['a', 'b', 'c']), true, 0⟩
    ∧ (okOf (derive_path c seed "m/2147483648").result).isSome = true
    ∧ (derive_path c seed "m/4294967296").result = .error (.indexOverflow 4294967296)
    ∧ (derive_path c seed "m/4294967296").masterComputed = true := by
  refine ⟨?_, rfl, rfl, rfl, rfl⟩
  unfold derive_path
  cases hp : splitChar '/' path.data with
  | nil => rfl
  | cons p0 rest =>
    have hne : ¬ p0 = ['m'] := by
      rw [hp] at h
      simpa using h
    simp [hne]

/-- Closed instance of `derive_path_validation` at the rootless path
`"x/0"`. -/
theorem derive_path_validation_witness :
    derive_path cw seed0 "x/0" = ⟨.error .rootMarker, false, 0⟩
    ∧ derive_path cw seed0 "m/abc" = ⟨.error (.intParse ['a', 'b', 'c']), true, 0⟩
    ∧ (okOf (derive_path cw seed0 "m/2147483648").result).isSome = true
    ∧ (derive_path cw seed0 "m/4294967296").result = .error (.indexOverflow 4294967296)
    ∧ (derive_path cw seed0 "m/4294967296").masterComputed = true :=
  derive_path_validation cw seed0 "x/0" (by decide)

/-- C8 is violated by the code (code bug): at path `m/1'` the serialized
extended-public-key payload decodes to 83 bytes — a 79-byte body (the key
field is `0x00 ‖ public_key`, the private-style layout) plus the 4-byte
checksum, not the claimed 78-byte body — and its child-number field holds
`0x80000000` while the final path segment's full 32-bit index is
`0x80000001`. -/
theorem get_xpub_bug :
    ((okOf (get_xpub c8crypto seed0 pathM1h)).bind b58decode).map List.length = some 83
    ∧ ((okOf (get_xpub c8crypto seed0 pathM1h)).bind b58decode).map
        (fun l => (l.drop 9).take 4) = some [128, 0, 0, 0]
    ∧ segIndex ("1" ++ aposStr).data = some 2147483649 := by
  refine ⟨by decide, by decide, by decide⟩

/-- C9: calling the `get_address` method twice on the wallet built from a
fixed `(mnemonic, passphrase)` with a fixed path returns the identical
result, and the call leaves the wallet object unchanged (the method only
reads `self.seed`). -/
theorem get_address_deterministic (c : Crypto) (mnemonic passphrase path : String) :
    (get_address_call c (HDWallet_of c mnemonic passphrase) path).1
      = (get_address_call c
          ((get_address_call c (HDWallet_of c mnemonic passphrase) path).2) path).1
    ∧ (get_address_call c (HDWallet_of c mnemonic passphrase) path).2
      = HDWallet_of c mnemonic passphrase :=
  ⟨rfl, rfl⟩

/-- C10: `create_ltc_address_for_user` returns exactly the success value
of the underlying derivation when it succeeds and `none` when any
internal step raises — it never propagates an exception.  The error case
is non-vacuous: with the all-zero HMAC oracle the path's non-hardened
step raises inside `ecdsa` and the call returns `none`. -/
theorem create_ltc_catches (c : Crypto) (seed : Bytes) (user_id : Nat) :
    create_ltc_address_for_user c seed user_id
      = okOf (get_address_from_path c seed (userPath (user_id % 1000000)))
    ∧ create_ltc_address_for_user c10crypto [] 0 = none
    ∧ errOf (get_address_from_path c10crypto [] (userPath 0)) = some DErr.ecInvalidKey := by
  refine ⟨?_, by decide, by decide⟩
  unfold create_ltc_address_for_user okOf
  cases get_address_from_path c seed (userPath (user_id % 1000000)) <;> rfl

/-- C3 is refuted: the module-level initialization cannot fail — when the
config import raises (or the configured mnemonic is invalid) it silently
falls back to a freshly generated mnemonic and serves that wallet, here
the concrete generated phrase `"fresh"`. -/
theorem module_init_counterexample :
    (module_hd_wallet c3crypto ConfigState.importFails).mnemonic = "fresh"
    ∧ c3crypto.generated_mnemonic = "fresh"
    ∧ (module_hd_wallet c3crypto (ConfigState.mnemonic "bad")).mnemonic = "fresh" :=
  ⟨rfl, rfl, rfl⟩

/-- C3 amended: whenever the configured master secret cannot be obtained
— the config import fails, the attribute is absent, or the configured
mnemonic fails validation — the module catches the failure and continues
with a wallet built from the freshly generated mnemonic; startup never
fails fatally. -/
theorem module_init_fallback (c : Crypto) (cfg : ConfigState)
    (h : cfg = ConfigState.importFails ∨ cfg = ConfigState.noMnemonicAttr ∨
      ∃ m, cfg = ConfigState.mnemonic m ∧ c.validate_mnemonic m = false) :
    module_hd_wallet c cfg =
      ⟨c.generated_mnemonic, "", c.mnemonic_to_seed c.generated_mnemonic ""⟩ := by
  rcases h with rfl | rfl | ⟨m, rfl, hm⟩
  · rfl
  · rfl
  · simp [module_hd_wallet, HDWallet_init, hm]

/-- Closed instance of `module_init_fallback` at a configured mnemonic
that fails validation. -/
theorem module_init_fallback_witness :
    module_hd_wallet c3crypto (ConfigState.mnemonic "bad") =
      ⟨c3crypto.generated_mnemonic, "",
       c3crypto.mnemonic_to_seed c3crypto.generated_mnemonic ""⟩ :=
  module_init_fallback c3crypto (ConfigState.mnemonic "bad")
    (Or.inr (Or.inr ⟨"bad", rfl, rfl⟩))
